import Mathlib

/-!
Shallow embedding of the quiz session core (package `quiz`): the `Session`
state machine with its `Answer`, `BringToFront`, `Current`, `Progress`,
`AttemptedCount`, `Results`, `Score` and `Completed` operations, translated
from the Go source.  Strings are modelled at the character level
(`String.data`): Go's `strings.TrimSpace`, `strings.ToUpper` first-character
extraction and `strings.EqualFold` are rendered as character-list operations,
which agree with the Go byte-level code on the ASCII letter inputs the system
is built around.  Where the byte level matters — Go's `normalize` extracts
the first byte, not the first character, of the uppercased trimmed input —
a byte-faithful rendering (`normalizeByte`) is also given and used to
exhibit the divergence.  Go slice indexing `l[i]` is rendered by the total lookup
`nthD l i d`; every index that the code actually uses is in range in every
reachable state (proved below), so the default is never observed.
-/

namespace Quiz

/-- Total list indexing with a default, modelling Go slice indexing. -/
def nthD {α : Type} : List α → Nat → α → α
  | [], _, d => d
  | a :: _, 0, _ => a
  | _ :: t, n + 1, d => nthD t n d

/-- Whitespace characters trimmed by Go's `strings.TrimSpace` (the Latin-1
range of `unicode.IsSpace`). -/
def goIsSpace (c : Char) : Bool :=
  c == ' ' || c == '\t' || c == '\n' || c == (Char.ofNat 11) ||
  c == (Char.ofNat 12) || c == '\r' || c == (Char.ofNat 133) || c == (Char.ofNat 160)

/-- Go `strings.TrimSpace`: drop whitespace from both ends. -/
def goTrim (s : String) : String :=
  String.mk (((s.data.dropWhile goIsSpace).reverse.dropWhile goIsSpace).reverse)

/-- Go `strings.EqualFold`, restricted to simple per-character case folding:
equality after lowercasing every character. -/
def equalFold (a b : String) : Bool :=
  a.data.map Char.toLower == b.data.map Char.toLower

/-- Go `normalize`: trim, return `none` (Go: rune 0) on empty, else the
uppercased first character. -/
def normalize (ans : String) : Option Char :=
  match (goTrim ans).data with
  | [] => none
  | c :: _ => some c.toUpper

/-- The `userAnswer` string built in `Answer` from `normalize`'s result:
empty for rune 0, else the one-character string. -/
def userAnswerOf (raw : String) : String :=
  match normalize raw with
  | none => ""
  | some c => String.mk [c]

/-- Go `unicode.ToUpper` on the fragment this development evaluates it at:
exact for every code point below U+00FF (ASCII letters and the Latin-1
letters à–þ other than ÷ map down by 0x20; everything else in that range is
fixed).  Beyond that fragment the full Unicode table is not modelled and
the character is left unchanged. -/
def goToUpperChar (c : Char) : Char :=
  if 97 ≤ c.toNat ∧ c.toNat ≤ 122 then Char.ofNat (c.toNat - 32)
  else if 224 ≤ c.toNat ∧ c.toNat ≤ 254 ∧ c.toNat ≠ 247 then
    Char.ofNat (c.toNat - 32)
  else c

/-- UTF-8 encoding of one code point, as Go strings store characters. -/
def utf8Bytes (c : Char) : List Nat :=
  let n := c.toNat
  if n < 128 then [n]
  else if n < 2048 then [192 + n / 64, 128 + n % 64]
  else if n < 65536 then [224 + n / 4096, 128 + (n / 64) % 64, 128 + n % 64]
  else [240 + n / 262144, 128 + (n / 4096) % 64, 128 + (n / 64) % 64,
    128 + n % 64]

/-- Byte-level rendering of Go `normalize`'s return value
`rune(strings.ToUpper(ans)[0])` (with the empty-string check): trim,
uppercase character-wise, UTF-8 encode, and take the first byte as the rune
value, 0 for empty input.  On the `goToUpperChar` fragment this is the
byte-faithful model of the source line; the character-level `normalize`
above agrees with it exactly on ASCII inputs, but not beyond (Go indexes a
byte, not a character). -/
def normalizeByte (ans : String) : Nat :=
  match ((goTrim ans).data.map goToUpperChar).flatMap utf8Bytes with
  | [] => 0
  | b :: _ => b

/-- The `userAnswer` string a byte-faithful `Answer` builds: Go turns
rune 0 into the empty string and any other rune into the one-character
string holding it. -/
def userAnswerByte (raw : String) : String :=
  if normalizeByte raw = 0 then ""
  else String.mk [Char.ofNat (normalizeByte raw)]

/-- Go `Question` (the `options` map is modelled as an association list;
it is opaque to the session core). -/
structure Question where
  domain : Int
  prompt : String
  options : List (String × String)
  answer : String
deriving DecidableEq, Repr

instance : Inhabited Question := ⟨⟨0, "", [], ""⟩⟩

/-- Go `Result`: the recorded first-attempt answer and its correctness.
The zero value `⟨"", false⟩` matches Go's `Result{}`. -/
structure Result where
  userAnswer : String
  correct : Bool
deriving DecidableEq, Repr

instance : Inhabited Result := ⟨⟨"", false⟩⟩

/-- Go `Session` (the mutex is a concurrency artefact and has no
sequential meaning; counters are the Go ints, which stay non-negative). -/
structure Session where
  questions : List Question
  attempted : List Bool
  completed : List Bool
  results : List Result
  queue : List Nat
  completedCount : Nat
  attemptedCount : Nat
deriving DecidableEq, Repr

/-- Go `NewSession`: all flags false, results zeroed, queue set to the drawn
permutation (`rand.Perm(len(qs))` is modelled by passing the permutation in;
reachability hypotheses require it to be a permutation of `range`). -/
def newSession (qs : List Question) (perm : List Nat) : Session :=
  { questions := qs
    attempted := List.replicate qs.length false
    completed := List.replicate qs.length false
    results := List.replicate qs.length default
    queue := perm
    completedCount := 0
    attemptedCount := 0 }

/-- Go `Current`: `(-1, Question{}, false)` on an empty queue, else the front
index and its question with `ok = true`, without dequeuing. -/
def Session.current (s : Session) : Int × Question × Bool :=
  match s.queue with
  | [] => (-1, default, false)
  | idx :: _ => (Int.ofNat idx, nthD s.questions idx default, true)

/-- The correctness test in `Answer`:
`strings.EqualFold(strings.TrimSpace(answer), s.Questions[idx].Answer)`. -/
def Session.correctOf (s : Session) (idx : Nat) (raw : String) : Bool :=
  equalFold (goTrim raw) ((nthD s.questions idx default).answer)

/-- The triple returned by Go `Answer`: the graded result, the `finished`
flag, and whether the error return was non-nil. -/
structure AnswerOut where
  res : Result
  finished : Bool
  err : Bool
deriving DecidableEq, Repr

/-- Body of Go `Answer` after the front index `idx` has been dequeued
(`rest` is the remaining queue).  The three conditional blocks of the Go
code touch pairwise disjoint parts of the state and each reads only state
no earlier block writes, so they are rendered as independent conditional
field updates: the completed/completedCount block guarded by
`res.Correct && !s.completed[idx]`, the attempted/results/attemptedCount
block guarded by `!s.attempted[idx]`, and the requeue of `idx` guarded by
`!res.Correct`. -/
def answerCore (s : Session) (idx : Nat) (rest : List Nat) (raw : String) :
    AnswerOut × Session :=
  let res : Result := ⟨userAnswerOf raw, s.correctOf idx raw⟩
  let firstCorrect := res.correct && !(nthD s.completed idx false)
  let firstAttempt := !(nthD s.attempted idx false)
  let queue2 := if res.correct then rest else rest ++ [idx]
  (⟨res, queue2.isEmpty, false⟩,
   { questions := s.questions
     attempted := if firstAttempt then s.attempted.set idx true else s.attempted
     completed := if firstCorrect then s.completed.set idx true else s.completed
     results := if firstAttempt then s.results.set idx res else s.results
     queue := queue2
     completedCount := if firstCorrect then s.completedCount + 1
       else s.completedCount
     attemptedCount := if firstAttempt then s.attemptedCount + 1
       else s.attemptedCount })

/-- Go `Answer`: error (with `finished = true` and the zero `Result`, state
untouched) on an empty queue; otherwise dequeue and run `answerCore`. -/
def Session.answer (s : Session) (raw : String) : AnswerOut × Session :=
  match s.queue with
  | [] => (⟨default, true, true⟩, s)
  | idx :: rest => answerCore s idx rest raw

/-- The scan loop in Go `BringToFront`: position of the first queue entry
equal to `target`, `none` for Go's `-1`. -/
def scanPos (t : Nat) : List Nat → Option Nat
  | [] => none
  | v :: rest => if v = t then some 0 else (scanPos t rest).map (· + 1)

/-- Go `BringToFront`: no-op when `target` is out of range of the
`completed` array or already completed; otherwise move (or insert) `target`
to the front of the queue, keeping the other entries in order. -/
def Session.bringToFront (s : Session) (target : Int) : Session :=
  if target < 0 ∨ (s.completed.length : Int) ≤ target ∨
      nthD s.completed target.toNat false = true then s
  else
    let t := target.toNat
    match scanPos t s.queue with
    | none => { s with queue := t :: s.queue }
    | some p =>
      if p = 0 then s
      else { s with queue := t :: (s.queue.take p ++ s.queue.drop (p + 1)) }

/-- Go `Progress`: the incrementally maintained completed counter and the
question count. -/
def Session.progress (s : Session) : Nat × Nat :=
  (s.completedCount, s.questions.length)

/-- Go `AttemptedCount`. -/
def Session.attemptedCountFn (s : Session) : Nat :=
  s.attemptedCount

/-- Go `Results` (the defensive copy is identity in a functional model). -/
def Session.resultsFn (s : Session) : List Result :=
  s.results

/-- Go `Score`: walk the `results` array, counting attempted indices and,
among them, recorded-correct ones. -/
def Session.score (s : Session) : Nat × Nat :=
  (((List.range s.results.length).filter
      (fun i => nthD s.attempted i false &&
        (nthD s.results i default).correct)).length,
   ((List.range s.results.length).filter
      (fun i => nthD s.attempted i false)).length)

/-- Go `Completed`: the queue is empty. -/
def Session.completedFn (s : Session) : Bool :=
  s.queue.isEmpty

/-- One externally invokable mutating operation. -/
inductive Op where
  | answer (raw : String)
  | bringToFront (target : Int)
deriving DecidableEq, Repr

/-- Apply one operation to the session (keeping only the state). -/
def Session.apply (s : Session) : Op → Session
  | .answer raw => (s.answer raw).2
  | .bringToFront t => s.bringToFront t

/-- Run a sequence of operations. -/
def Session.run (s : Session) : List Op → Session
  | [] => s
  | op :: ops => (s.apply op).run ops

/-- Session states reachable from `NewSession` (over any question list and
any drawn permutation) by `Answer` and `BringToFront` calls. -/
inductive Reachable : Session → Prop where
  | init (qs : List Question) (perm : List Nat)
      (h : perm.Perm (List.range qs.length)) : Reachable (newSession qs perm)
  | answer (s : Session) (raw : String) :
      Reachable s → Reachable (s.answer raw).2
  | bringToFront (s : Session) (t : Int) :
      Reachable s → Reachable (s.bringToFront t)

/-- Number of `true` entries of a boolean array. -/
def countTrue (l : List Bool) : Nat := (l.filter id).length

theorem countTrue_cons (b : Bool) (t : List Bool) :
    countTrue (b :: t) = (if b then 1 else 0) + countTrue t := by
  cases b <;> simp [countTrue, List.filter_cons] <;> omega

theorem nthD_set_self {α : Type} (l : List α) (i : Nat) (a d : α)
    (h : i < l.length) : nthD (l.set i a) i d = a := by
  induction l generalizing i with
  | nil => simp at h
  | cons b t ih =>
    cases i with
    | zero => rfl
    | succ j =>
      have hj : j < t.length := by simpa using h
      simpa [List.set, nthD] using ih j hj

theorem nthD_set_ne {α : Type} (l : List α) (i j : Nat) (a d : α)
    (h : i ≠ j) : nthD (l.set i a) j d = nthD l j d := by
  induction l generalizing i j with
  | nil => rfl
  | cons b t ih =>
    cases i with
    | zero =>
      cases j with
      | zero => exact absurd rfl h
      | succ k => rfl
    | succ i' =>
      cases j with
      | zero => rfl
      | succ k =>
        have : i' ≠ k := fun he => h (by rw [he])
        simpa [List.set, nthD] using ih i' k this

theorem countTrue_set_true (l : List Bool) (i : Nat) (h : i < l.length)
    (hf : nthD l i false = false) :
    countTrue (l.set i true) = countTrue l + 1 := by
  induction l generalizing i with
  | nil => simp at h
  | cons b t ih =>
    cases i with
    | zero =>
      have hb : b = false := hf
      subst hb
      simp [countTrue_cons]
      omega
    | succ j =>
      have hj : j < t.length := by simpa using h
      have hf' : nthD t j false = false := hf
      have := ih j hj hf'
      cases b <;> simp [countTrue_cons, this] <;> omega

theorem countTrue_all (l : List Bool)
    (h : ∀ i, i < l.length → nthD l i false = true) :
    countTrue l = l.length := by
  induction l with
  | nil => rfl
  | cons b t ih =>
    have hb : b = true := h 0 (by simp)
    subst hb
    have ht := ih (fun i hi => h (i + 1) (by simpa using hi))
    simp [countTrue_cons, ht]
    omega

theorem countTrue_replicate_false (n : Nat) :
    countTrue (List.replicate n false) = 0 := by
  induction n with
  | zero => rfl
  | succ m ih => simp [List.replicate, countTrue_cons, ih]

theorem nthD_replicate_false (n i : Nat) :
    nthD (List.replicate n false) i false = false := by
  induction n generalizing i with
  | zero => rfl
  | succ m ih =>
    cases i with
    | zero => rfl
    | succ j => simpa [List.replicate, nthD] using ih j

theorem range_filter_nthD (l : List Bool) :
    ((List.range l.length).filter (fun i => nthD l i false)).length
      = countTrue l := by
  induction l with
  | nil => rfl
  | cons b t ih =>
    have hr : List.range (b :: t).length
        = 0 :: (List.range t.length).map (· + 1) := by
      simpa using List.range_succ_eq_map t.length
    have hmap : (((List.range t.length).map (· + 1)).filter
        (fun i => nthD (b :: t) i false)).length = countTrue t := by
      rw [List.filter_map,
        List.filter_congr
          (fun a _ => rfl : ∀ a ∈ List.range t.length,
            ((fun i => nthD (b :: t) i false) ∘ (· + 1)) a
              = (fun i => nthD t i false) a),
        List.length_map]
      exact ih
    rw [hr, List.filter_cons]
    cases b
    · simpa [nthD] using hmap
    · simpa [nthD, countTrue_cons, Nat.add_comm] using hmap

theorem scanPos_none (t : Nat) (l : List Nat) :
    scanPos t l = none ↔ t ∉ l := by
  induction l with
  | nil => simp [scanPos]
  | cons v rest ih =>
    by_cases hv : v = t
    · subst hv; simp [scanPos]
    · simp [scanPos, hv, Option.map_eq_none', ih, Ne.symm hv]

theorem scanPos_some (t : Nat) (l : List Nat) (p : Nat)
    (h : scanPos t l = some p) :
    l.take p ++ t :: l.drop (p + 1) = l := by
  induction l generalizing p with
  | nil => simp [scanPos] at h
  | cons v rest ih =>
    by_cases hv : v = t
    · subst hv
      simp [scanPos] at h
      subst h
      simp
    · simp [scanPos, hv] at h
      obtain ⟨q, hq, hpq⟩ := h
      subst hpq
      simp [List.take, List.drop, ih q hq]

/-- The sequential invariant of a session, preserved by every operation. -/
structure Inv (s : Session) : Prop where
  len_att : s.attempted.length = s.questions.length
  len_comp : s.completed.length = s.questions.length
  len_res : s.results.length = s.questions.length
  nodup : s.queue.Nodup
  queue_lt : ∀ i ∈ s.queue, i < s.questions.length
  queue_nc : ∀ i ∈ s.queue, nthD s.completed i false = false
  cover : ∀ i, i < s.questions.length →
    i ∈ s.queue ∨ nthD s.completed i false = true
  comp_att : ∀ i, nthD s.completed i false = true →
    nthD s.attempted i false = true
  ccount : s.completedCount = countTrue s.completed
  acount : s.attemptedCount = countTrue s.attempted

theorem answer_nil (s : Session) (raw : String) (h : s.queue = []) :
    s.answer raw = (⟨default, true, true⟩, s) := by
  unfold Session.answer
  rw [h]

theorem answer_cons (s : Session) (raw : String) (idx : Nat)
    (rest : List Nat) (h : s.queue = idx :: rest) :
    s.answer raw = answerCore s idx rest raw := by
  unfold Session.answer
  rw [h]

theorem nodup_append_singleton {a : Nat} {l : List Nat}
    (hn : l.Nodup) (ha : a ∉ l) : (l ++ [a]).Nodup := by
  have hp : (l ++ [a]).Perm (a :: l) := List.perm_append_singleton a l
  exact hp.nodup_iff.mpr (List.nodup_cons.mpr ⟨ha, hn⟩)

theorem inv_newSession (qs : List Question) (perm : List Nat)
    (h : perm.Perm (List.range qs.length)) : Inv (newSession qs perm) := by
  refine ⟨?_, ?_, ?_, ?_, ?_, ?_, ?_, ?_, ?_, ?_⟩ <;>
    simp only [newSession, List.length_replicate]
  · exact h.nodup_iff.mpr (List.nodup_range _)
  · intro i hi
    exact List.mem_range.mp (h.mem_iff.mp hi)
  · intro i hi
    exact nthD_replicate_false _ _
  · intro i hi
    exact Or.inl (h.mem_iff.mpr (List.mem_range.mpr hi))
  · intro i hi
    rw [nthD_replicate_false] at hi
    exact absurd hi (by simp)
  · exact (countTrue_replicate_false _).symm
  · exact (countTrue_replicate_false _).symm

theorem inv_answer (s : Session) (raw : String) (h : Inv s) :
    Inv (s.answer raw).2 := by
  cases hq : s.queue with
  | nil =>
    rw [answer_nil s raw hq]
    exact h
  | cons idx rest =>
    have hmem : idx ∈ s.queue := by
      rw [hq]; exact List.mem_cons_self _ _
    have hlt : idx < s.questions.length := h.queue_lt idx hmem
    have hltc : idx < s.completed.length := by rw [h.len_comp]; exact hlt
    have hlta : idx < s.attempted.length := by rw [h.len_att]; exact hlt
    have hnc : nthD s.completed idx false = false := h.queue_nc idx hmem
    have hnods : (idx :: rest).Nodup := by rw [← hq]; exact h.nodup
    have hnotin : idx ∉ rest := (List.nodup_cons.mp hnods).1
    have hrest : rest.Nodup := (List.nodup_cons.mp hnods).2
    have hmem_rest : ∀ i ∈ rest, i ∈ s.queue := by
      intro i hi; rw [hq]; exact List.mem_cons_of_mem _ hi
    have hqlt : ∀ i ∈ rest ++ [idx], i < s.questions.length := by
      intro i hi
      rcases List.mem_append.mp hi with hi | hi
      · exact h.queue_lt i (hmem_rest i hi)
      · rw [List.mem_singleton.mp hi]; exact hlt
    have hqnc : ∀ i ∈ rest ++ [idx], nthD s.completed i false = false := by
      intro i hi
      rcases List.mem_append.mp hi with hi | hi
      · exact h.queue_nc i (hmem_rest i hi)
      · rw [List.mem_singleton.mp hi]; exact hnc
    have hcover_app : ∀ i, i < s.questions.length →
        i ∈ rest ++ [idx] ∨ nthD s.completed i false = true := by
      intro i hi
      rcases h.cover i hi with hcov | hcov
      · rw [hq] at hcov
        rcases List.mem_cons.mp hcov with he | he
        · subst he
          exact Or.inl (List.mem_append.mpr (Or.inr (List.mem_singleton.mpr rfl)))
        · exact Or.inl (List.mem_append.mpr (Or.inl he))
      · exact Or.inr hcov
    have hqnc_set : ∀ i ∈ rest, nthD (s.completed.set idx true) i false = false := by
      intro i hi
      have hne : idx ≠ i := fun he => hnotin (he ▸ hi)
      rw [nthD_set_ne _ _ _ _ _ hne]
      exact h.queue_nc i (hmem_rest i hi)
    have hcover_set : ∀ i, i < s.questions.length →
        i ∈ rest ∨ nthD (s.completed.set idx true) i false = true := by
      intro i hi
      rcases h.cover i hi with hcov | hcov
      · rw [hq] at hcov
        rcases List.mem_cons.mp hcov with he | he
        · subst he
          exact Or.inr (nthD_set_self _ _ _ _ hltc)
        · exact Or.inl he
      · have hne : idx ≠ i := fun he => by rw [← he, hnc] at hcov; simp at hcov
        rw [nthD_set_ne _ _ _ _ _ hne]
        exact Or.inr hcov
    rw [answer_cons s raw idx rest hq]
    simp only [answerCore]
    rw [hnc]
    cases hc : s.correctOf idx raw <;> cases ha : nthD s.attempted idx false <;>
      simp only [Bool.false_and, Bool.true_and, Bool.and_false, Bool.and_true,
        Bool.not_false, Bool.not_true, Bool.false_eq_true, Bool.true_eq_false,
        if_true, if_false, ite_true, ite_false]
    -- incorrect answer, first attempt at idx
    · refine ⟨?_, ?_, ?_, ?_, ?_, ?_, ?_, ?_, ?_, ?_⟩
      · rw [List.length_set]; exact h.len_att
      · exact h.len_comp
      · rw [List.length_set]; exact h.len_res
      · exact nodup_append_singleton hrest hnotin
      · exact hqlt
      · exact hqnc
      · exact hcover_app
      · intro i hi
        by_cases he : idx = i
        · subst he; exact nthD_set_self _ _ _ _ hlta
        · rw [nthD_set_ne _ _ _ _ _ he]
          exact h.comp_att i hi
      · exact h.ccount
      · rw [h.acount, countTrue_set_true _ _ hlta ha]
    -- incorrect answer, idx already attempted
    · refine ⟨h.len_att, h.len_comp, h.len_res,
        nodup_append_singleton hrest hnotin, hqlt, hqnc, hcover_app,
        h.comp_att, h.ccount, h.acount⟩
    -- correct answer, first attempt at idx
    · refine ⟨?_, ?_, ?_, ?_, ?_, ?_, ?_, ?_, ?_, ?_⟩
      · rw [List.length_set]; exact h.len_att
      · rw [List.length_set]; exact h.len_comp
      · rw [List.length_set]; exact h.len_res
      · exact hrest
      · intro i hi; exact h.queue_lt i (hmem_rest i hi)
      · exact hqnc_set
      · exact hcover_set
      · intro i hi
        by_cases he : idx = i
        · subst he; exact nthD_set_self _ _ _ _ hlta
        · rw [nthD_set_ne _ _ _ _ _ he] at hi ⊢
          exact h.comp_att i hi
      · rw [h.ccount, countTrue_set_true _ _ hltc hnc]
      · rw [h.acount, countTrue_set_true _ _ hlta ha]
    -- correct answer, idx already attempted
    · refine ⟨h.len_att, ?_, h.len_res, hrest, ?_, hqnc_set, hcover_set,
        ?_, ?_, h.acount⟩
      · rw [List.length_set]; exact h.len_comp
      · intro i hi; exact h.queue_lt i (hmem_rest i hi)
      · intro i hi
        by_cases he : idx = i
        · subst he; exact ha
        · rw [nthD_set_ne _ _ _ _ _ he] at hi
          exact h.comp_att i hi
      · rw [h.ccount, countTrue_set_true _ _ hltc hnc]

theorem bringToFront_noop (s : Session) (target : Int)
    (hcond : target < 0 ∨ (s.completed.length : Int) ≤ target ∨
      nthD s.completed target.toNat false = true) :
    s.bringToFront target = s := by
  unfold Session.bringToFront
  rw [if_pos hcond]

theorem bringToFront_none (s : Session) (target : Int)
    (hcond : ¬(target < 0 ∨ (s.completed.length : Int) ≤ target ∨
      nthD s.completed target.toNat false = true))
    (hscan : scanPos target.toNat s.queue = none) :
    s.bringToFront target = { s with queue := target.toNat :: s.queue } := by
  unfold Session.bringToFront
  rw [if_neg hcond]
  dsimp only
  rw [hscan]

theorem bringToFront_front (s : Session) (target : Int)
    (hcond : ¬(target < 0 ∨ (s.completed.length : Int) ≤ target ∨
      nthD s.completed target.toNat false = true))
    (hscan : scanPos target.toNat s.queue = some 0) :
    s.bringToFront target = s := by
  unfold Session.bringToFront
  rw [if_neg hcond]
  dsimp only
  rw [hscan]
  simp

theorem bringToFront_move (s : Session) (target : Int) (p : Nat)
    (hcond : ¬(target < 0 ∨ (s.completed.length : Int) ≤ target ∨
      nthD s.completed target.toNat false = true))
    (hscan : scanPos target.toNat s.queue = some p) (hp : p ≠ 0) :
    s.bringToFront target =
      { s with queue :=
          target.toNat :: (s.queue.take p ++ s.queue.drop (p + 1)) } := by
  unfold Session.bringToFront
  rw [if_neg hcond]
  dsimp only
  rw [hscan]
  dsimp only
  rw [if_neg hp]

theorem inv_bringToFront (s : Session) (target : Int) (h : Inv s) :
    Inv (s.bringToFront target) := by
  by_cases hcond : target < 0 ∨ (s.completed.length : Int) ≤ target ∨
      nthD s.completed target.toNat false = true
  · rw [bringToFront_noop s target hcond]
    exact h
  · push_neg at hcond
    obtain ⟨h0, hlen, hcompl⟩ := hcond
    have hcond' : ¬(target < 0 ∨ (s.completed.length : Int) ≤ target ∨
        nthD s.completed target.toNat false = true) := by
      push_neg
      exact ⟨h0, hlen, hcompl⟩
    have hcf : nthD s.completed target.toNat false = false := by
      revert hcompl
      cases nthD s.completed target.toNat false <;> simp
    have htlt : target.toNat < s.questions.length := by
      rw [← h.len_comp]
      omega
    cases hscan : scanPos target.toNat s.queue with
    | none =>
      rw [bringToFront_none s target hcond' hscan]
      have hnotin : target.toNat ∉ s.queue := (scanPos_none _ _).mp hscan
      refine ⟨h.len_att, h.len_comp, h.len_res, ?_, ?_, ?_, ?_,
        h.comp_att, h.ccount, h.acount⟩
      · exact List.nodup_cons.mpr ⟨hnotin, h.nodup⟩
      · intro i hi
        rcases List.mem_cons.mp hi with he | hi
        · subst he; exact htlt
        · exact h.queue_lt i hi
      · intro i hi
        rcases List.mem_cons.mp hi with he | hi
        · subst he; exact hcf
        · exact h.queue_nc i hi
      · intro i hi
        rcases h.cover i hi with hcov | hcov
        · exact Or.inl (List.mem_cons_of_mem _ hcov)
        · exact Or.inr hcov
    | some p =>
      by_cases hp : p = 0
      · subst hp
        rw [bringToFront_front s target hcond' hscan]
        exact h
      · rw [bringToFront_move s target p hcond' hscan hp]
        have hsplit := scanPos_some _ _ _ hscan
        have hperm : (target.toNat ::
            (s.queue.take p ++ s.queue.drop (p + 1))).Perm s.queue := by
          have := @List.perm_middle Nat target.toNat
            (s.queue.take p) (s.queue.drop (p + 1))
          rw [hsplit] at this
          exact this.symm
        refine ⟨h.len_att, h.len_comp, h.len_res, ?_, ?_, ?_, ?_,
          h.comp_att, h.ccount, h.acount⟩
        · exact hperm.nodup_iff.mpr h.nodup
        · intro i hi
          exact h.queue_lt i (hperm.mem_iff.mp hi)
        · intro i hi
          exact h.queue_nc i (hperm.mem_iff.mp hi)
        · intro i hi
          rcases h.cover i hi with hcov | hcov
          · exact Or.inl (hperm.mem_iff.mpr hcov)
          · exact Or.inr hcov

theorem reachable_inv (s : Session) (h : Reachable s) : Inv s := by
  induction h with
  | init qs perm hp => exact inv_newSession qs perm hp
  | answer t raw _ ih => exact inv_answer t raw ih
  | bringToFront t k _ ih => exact inv_bringToFront t k ih

theorem reachable_apply (s : Session) (op : Op) (h : Reachable s) :
    Reachable (s.apply op) := by
  cases op with
  | answer raw => exact Reachable.answer s raw h
  | bringToFront t => exact Reachable.bringToFront s t h

theorem reachable_run (s : Session) (ops : List Op) (h : Reachable s) :
    Reachable (s.run ops) := by
  induction ops generalizing s with
  | nil => exact h
  | cons op ops ih => exact ih _ (reachable_apply s op h)

theorem answerCore_fst (s : Session) (idx : Nat) (rest : List Nat)
    (raw : String) :
    (answerCore s idx rest raw).1 =
      ⟨⟨userAnswerOf raw, s.correctOf idx raw⟩,
        (if s.correctOf idx raw then rest else rest ++ [idx]).isEmpty,
        false⟩ := rfl

theorem bringToFront_frame (s : Session) (target : Int) :
    (s.bringToFront target).questions = s.questions ∧
    (s.bringToFront target).attempted = s.attempted ∧
    (s.bringToFront target).completed = s.completed ∧
    (s.bringToFront target).results = s.results ∧
    (s.bringToFront target).completedCount = s.completedCount ∧
    (s.bringToFront target).attemptedCount = s.attemptedCount := by
  by_cases hcond : target < 0 ∨ (s.completed.length : Int) ≤ target ∨
      nthD s.completed target.toNat false = true
  · rw [bringToFront_noop s target hcond]
    exact ⟨rfl, rfl, rfl, rfl, rfl, rfl⟩
  · cases hscan : scanPos target.toNat s.queue with
    | none =>
      rw [bringToFront_none s target hcond hscan]
      exact ⟨rfl, rfl, rfl, rfl, rfl, rfl⟩
    | some p =>
      by_cases hp : p = 0
      · subst hp
        rw [bringToFront_front s target hcond hscan]
        exact ⟨rfl, rfl, rfl, rfl, rfl, rfl⟩
      · rw [bringToFront_move s target p hcond hscan hp]
        exact ⟨rfl, rfl, rfl, rfl, rfl, rfl⟩

theorem answer_att_frozen (s : Session) (raw : String) (i : Nat)
    (hi : nthD s.attempted i false = true) :
    nthD (s.answer raw).2.attempted i false = true ∧
    nthD (s.answer raw).2.results i default = nthD s.results i default := by
  cases hq : s.queue with
  | nil =>
    rw [answer_nil s raw hq]
    exact ⟨hi, rfl⟩
  | cons idx rest =>
    rw [answer_cons s raw idx rest hq]
    simp only [answerCore]
    by_cases he : idx = i
    · subst he
      rw [hi]
      simp
      exact hi
    · cases ha : nthD s.attempted idx false <;>
        simp [nthD_set_ne _ _ _ _ _ he, hi]

theorem answer_comp_frozen (s : Session) (raw : String) (i : Nat)
    (hi : nthD s.completed i false = true) :
    nthD (s.answer raw).2.completed i false = true := by
  cases hq : s.queue with
  | nil =>
    rw [answer_nil s raw hq]
    exact hi
  | cons idx rest =>
    rw [answer_cons s raw idx rest hq]
    simp only [answerCore]
    by_cases he : idx = i
    · subst he
      rw [hi]
      simp
      exact hi
    · cases hcm : (s.correctOf idx raw && !(nthD s.completed idx false)) <;>
        simp [nthD_set_ne _ _ _ _ _ he, hi]

theorem answer_counts_mono (s : Session) (raw : String) :
    s.attemptedCount ≤ (s.answer raw).2.attemptedCount ∧
    s.completedCount ≤ (s.answer raw).2.completedCount := by
  cases hq : s.queue with
  | nil =>
    rw [answer_nil s raw hq]
    exact ⟨Nat.le_refl _, Nat.le_refl _⟩
  | cons idx rest =>
    rw [answer_cons s raw idx rest hq]
    simp only [answerCore]
    constructor <;> dsimp only <;> split <;> omega

theorem apply_preserve (s : Session) (op : Op) (i : Nat) :
    (nthD s.attempted i false = true →
      nthD (s.apply op).attempted i false = true ∧
      nthD (s.apply op).results i default = nthD s.results i default) ∧
    (nthD s.completed i false = true →
      nthD (s.apply op).completed i false = true) ∧
    s.attemptedCount ≤ (s.apply op).attemptedCount ∧
    s.completedCount ≤ (s.apply op).completedCount := by
  cases op with
  | answer raw =>
    exact ⟨answer_att_frozen s raw i, answer_comp_frozen s raw i,
      answer_counts_mono s raw⟩
  | bringToFront t =>
    obtain ⟨_, hatt, hcomp, hres, hcc, hac⟩ := bringToFront_frame s t
    simp only [Session.apply]
    rw [hatt, hcomp, hres, hcc, hac]
    exact ⟨fun hh => ⟨hh, rfl⟩, id, Nat.le_refl _, Nat.le_refl _⟩

theorem run_preserve (s : Session) (ops : List Op) (i : Nat) :
    (nthD s.attempted i false = true →
      nthD (s.run ops).attempted i false = true ∧
      nthD (s.run ops).results i default = nthD s.results i default) ∧
    (nthD s.completed i false = true →
      nthD (s.run ops).completed i false = true) ∧
    s.attemptedCount ≤ (s.run ops).attemptedCount ∧
    s.completedCount ≤ (s.run ops).completedCount := by
  induction ops generalizing s with
  | nil => exact ⟨fun hh => ⟨hh, rfl⟩, id, Nat.le_refl _, Nat.le_refl _⟩
  | cons op rest ih =>
    obtain ⟨ha1, hc1, hac1, hcc1⟩ := apply_preserve s op i
    obtain ⟨ha2, hc2, hac2, hcc2⟩ := ih (s.apply op)
    refine ⟨?_, ?_, ?_, ?_⟩
    · intro hh
      obtain ⟨hh1, hh2⟩ := ha1 hh
      obtain ⟨hh3, hh4⟩ := ha2 hh1
      exact ⟨hh3, hh4.trans hh2⟩
    · intro hh
      exact hc2 (hc1 hh)
    · exact hac1.trans hac2
    · exact hcc1.trans hcc2

theorem score_answered_eq (s : Session) (h : Inv s) :
    s.score.2 = s.attemptedCount := by
  unfold Session.score
  dsimp only
  rw [h.len_res, ← h.len_att, range_filter_nthD, h.acount]

theorem bringToFront_finished (s : Session) (h : Inv s) (hfin : s.queue = [])
    (t : Int) : s.bringToFront t = s := by
  by_cases hcond : t < 0 ∨ (s.completed.length : Int) ≤ t ∨
      nthD s.completed t.toNat false = true
  · exact bringToFront_noop s t hcond
  · exfalso
    push_neg at hcond
    obtain ⟨h0, hlen, hcompl⟩ := hcond
    have hlt : t.toNat < s.questions.length := by
      rw [← h.len_comp]
      omega
    rcases h.cover t.toNat hlt with hc | hc
    · rw [hfin] at hc
      simp at hc
    · exact hcompl hc

theorem apply_finished (s : Session) (op : Op) (h : Inv s)
    (hfin : s.queue = []) : s.apply op = s := by
  cases op with
  | answer raw =>
    show (s.answer raw).2 = s
    rw [answer_nil s raw hfin]
  | bringToFront t => exact bringToFront_finished s h hfin t

theorem run_finished (s : Session) (ops : List Op) (h : Reachable s)
    (hfin : s.queue = []) : s.run ops = s := by
  induction ops generalizing s with
  | nil => rfl
  | cons op rest ih =>
    show (s.apply op).run rest = s
    rw [apply_finished s op (reachable_inv s h) hfin]
    exact ih s h hfin

/-- Scenario fixture: the single question of spec scenario B, key "B". -/
def qB : Question := ⟨0, "", [], "B"⟩

/-- Scenario B initial session (one question forces the permutation `[0]`). -/
def sB0 : Session := newSession [qB] [0]

/-- Scenario B after submitting "A". -/
def sB1 : Session := (sB0.answer "A").2

/-- Scenario B after submitting "A" and then "B". -/
def sB2 : Session := (sB1.answer "B").2

theorem reachable_sB0 : Reachable sB0 :=
  Reachable.init [qB] [0] (by decide)

theorem reachable_sB1 : Reachable sB1 :=
  Reachable.answer sB0 "A" reachable_sB0

theorem reachable_sB2 : Reachable sB2 :=
  Reachable.answer sB1 "B" reachable_sB1

/-- C1: in every session reachable from `NewSession` by `Answer` and
`BringToFront` calls, the queue has no duplicate indices, no completed index
is queued, every index is in range, queued and completed indices together
cover the full index set, and an empty queue forces
`completedCount = len(questions)`. -/
theorem claim_C1 (s : Session) (h : Reachable s) :
    s.queue.Nodup ∧
    (∀ i ∈ s.queue, nthD s.completed i false = false) ∧
    (∀ i ∈ s.queue, i < s.questions.length) ∧
    (∀ i, i < s.questions.length →
      i ∈ s.queue ∨ nthD s.completed i false = true) ∧
    (s.queue = [] → s.completedCount = s.questions.length) := by
  have hi := reachable_inv s h
  refine ⟨hi.nodup, hi.queue_nc, hi.queue_lt, hi.cover, ?_⟩
  intro hq
  have hall : ∀ i, i < s.completed.length →
      nthD s.completed i false = true := by
    intro i hilt
    rcases hi.cover i (by rw [← hi.len_comp]; exact hilt) with hc | hc
    · rw [hq] at hc
      simp at hc
    · exact hc
  rw [hi.ccount, countTrue_all s.completed hall, hi.len_comp]

theorem claim_C1_witness :
    sB2.queue = [] ∧ sB2.completedCount = sB2.questions.length :=
  ⟨by decide, (claim_C1 sB2 reachable_sB2).2.2.2.2 (by decide)⟩

/-- C2: spec scenario B over one question keyed "B": `Answer("A")` yields
result `{A, false}`, `finished = false`, and requeues index 0;
`Answer("B")` yields `{B, true}` and `finished = true`; afterwards
`results[0]` still holds the first attempt `{A, false}`, `completedCount`
is 1 and `Score()` returns `(0, 1)`. -/
theorem claim_C2 :
    sB0.queue = [0] ∧
    (sB0.answer "A").1 = ⟨⟨"A", false⟩, false, false⟩ ∧
    sB1.queue = [0] ∧
    (sB1.answer "B").1 = ⟨⟨"B", true⟩, true, false⟩ ∧
    nthD sB2.results 0 default = ⟨"A", false⟩ ∧
    sB2.completedCount = 1 ∧
    sB2.score = (0, 1) := by
  decide

/-- C3: once `attempted[i]` holds, `results[i]` is frozen for the rest of
the session (even under a repeat attempt whose correctness differs);
attempted and completed flags never revert; both counters are monotone
under any sequence of operations. -/
theorem claim_C3 (s : Session) (ops : List Op) (i : Nat) :
    (nthD s.attempted i false = true →
      nthD (s.run ops).attempted i false = true ∧
      nthD (s.run ops).results i default = nthD s.results i default) ∧
    (nthD s.completed i false = true →
      nthD (s.run ops).completed i false = true) ∧
    s.attemptedCount ≤ (s.run ops).attemptedCount ∧
    s.completedCount ≤ (s.run ops).completedCount :=
  run_preserve s ops i

theorem claim_C3_witness :
    nthD sB1.attempted 0 false = true ∧
    nthD (sB1.run [Op.answer "B"]).results 0 default = ⟨"A", false⟩ := by
  refine ⟨by decide, ?_⟩
  have hh := (claim_C3 sB1 [Op.answer "B"] 0).1 (by decide)
  rw [hh.2]
  decide

/-- C4: `Answer` returns an error exactly when the queue is empty at call
time; in that case the state is returned unchanged; with a non-empty queue
no input string produces an error. -/
theorem claim_C4 (s : Session) (raw : String) :
    ((s.answer raw).1.err = true ↔ s.queue = []) ∧
    (s.queue = [] → (s.answer raw).2 = s) := by
  cases hq : s.queue with
  | nil =>
    rw [answer_nil s raw hq]
    exact ⟨⟨fun _ => rfl, fun _ => rfl⟩, fun _ => rfl⟩
  | cons idx rest =>
    rw [answer_cons s raw idx rest hq]
    rw [answerCore_fst]
    constructor
    · simp
    · intro he
      exact absurd he (by simp)

theorem claim_C4_witness :
    sB2.queue = [] ∧ (sB2.answer "X").1.err = true ∧
    (sB2.answer "X").2 = sB2 :=
  ⟨by decide, (claim_C4 sB2 "X").1.mpr (by decide),
    (claim_C4 sB2 "X").2 (by decide)⟩

/-- C9: `BringToFront` never changes the attempted or completed flags, the
recorded results, or either counter, for any target whatsoever — it only
reorders the queue. -/
theorem claim_C9 (s : Session) (target : Int) :
    (s.bringToFront target).attempted = s.attempted ∧
    (s.bringToFront target).completed = s.completed ∧
    (s.bringToFront target).results = s.results ∧
    (s.bringToFront target).attemptedCount = s.attemptedCount ∧
    (s.bringToFront target).completedCount = s.completedCount := by
  obtain ⟨_, h1, h2, h3, h4, h5⟩ := bringToFront_frame s target
  exact ⟨h1, h2, h3, h5, h4⟩

/-- C10: being finished is absorbing for reachable sessions: once the queue
is empty, every `Answer` call errors and returns the state unchanged, every
`BringToFront` call is a no-op, and after any sequence of operations
`Completed()` still reports true. -/
theorem claim_C10 (s : Session) (h : Reachable s) (hfin : s.queue = []) :
    (∀ raw, (s.answer raw).1.err = true ∧ (s.answer raw).2 = s) ∧
    (∀ t, s.bringToFront t = s) ∧
    (∀ ops, (s.run ops).completedFn = true) := by
  refine ⟨?_, ?_, ?_⟩
  · intro raw
    rw [answer_nil s raw hfin]
    exact ⟨rfl, rfl⟩
  · exact bringToFront_finished s (reachable_inv s h) hfin
  · intro ops
    rw [run_finished s ops h hfin]
    simp [Session.completedFn, hfin]

theorem claim_C10_witness :
    sB2.queue = [] ∧
    (sB2.run [Op.bringToFront 0, Op.answer "A"]).completedFn = true :=
  ⟨by decide, (claim_C10 sB2 reachable_sB2 (by decide)).2.2
    [Op.bringToFront 0, Op.answer "A"]⟩

theorem current_of_head (s : Session) (v : Nat)
    (h : s.queue.head? = some v) :
    s.current.1 = Int.ofNat v ∧ s.current.2.2 = true := by
  cases hq : s.queue with
  | nil =>
    rw [hq] at h
    cases h
  | cons a t =>
    rw [hq] at h
    injection h with h
    subst h
    unfold Session.current
    rw [hq]
    exact ⟨rfl, rfl⟩

theorem bringToFront_head (s : Session) (target : Int)
    (hcond : ¬(target < 0 ∨ (s.completed.length : Int) ≤ target ∨
      nthD s.completed target.toNat false = true)) :
    (s.bringToFront target).queue.head? = some target.toNat ∧
    (s.bringToFront target).queue.filter (fun v => !(v == target.toNat))
      = s.queue.filter (fun v => !(v == target.toNat)) := by
  cases hscan : scanPos target.toNat s.queue with
  | none =>
    rw [bringToFront_none s target hcond hscan]
    refine ⟨rfl, ?_⟩
    show List.filter _ (target.toNat :: s.queue) = _
    rw [List.filter_cons]
    simp
  | some p =>
    by_cases hp : p = 0
    · subst hp
      rw [bringToFront_front s target hcond hscan]
      have hsplit := scanPos_some _ _ _ hscan
      simp only [List.take_zero, List.nil_append, Nat.zero_add] at hsplit
      refine ⟨?_, rfl⟩
      rw [← hsplit]
      rfl
    · rw [bringToFront_move s target p hcond hscan hp]
      have hsplit := scanPos_some _ _ _ hscan
      refine ⟨rfl, ?_⟩
      conv_rhs => rw [← hsplit]
      simp [List.filter_cons, List.filter_append]

/-- C5: `BringToFront` is a no-op for an out-of-range or already completed
target; otherwise `Current()` afterwards returns the target with `ok` true
(here stated under the claim's guard that the queue was non-empty) and the
other queued indices keep their relative order. -/
theorem claim_C5 (s : Session) (target : Int) :
    ((target < 0 ∨ (s.completed.length : Int) ≤ target ∨
        nthD s.completed target.toNat false = true) →
      s.bringToFront target = s) ∧
    (¬(target < 0 ∨ (s.completed.length : Int) ≤ target ∨
        nthD s.completed target.toNat false = true) →
      (s.queue ≠ [] →
        (s.bringToFront target).current.1 = target ∧
        (s.bringToFront target).current.2.2 = true) ∧
      (s.bringToFront target).queue.filter (fun v => !(v == target.toNat))
        = s.queue.filter (fun v => !(v == target.toNat))) := by
  refine ⟨bringToFront_noop s target, ?_⟩
  intro hcond
  have h0 : 0 ≤ target := by
    by_contra hlt
    exact hcond (Or.inl (by omega))
  obtain ⟨hhead, hfilter⟩ := bringToFront_head s target hcond
  refine ⟨?_, hfilter⟩
  intro _
  obtain ⟨h1, h2⟩ := current_of_head _ _ hhead
  refine ⟨?_, h2⟩
  rw [h1]
  exact Int.toNat_of_nonneg h0

theorem claim_C5_witness :
    ¬((0 : Int) < 0 ∨ (sB0.completed.length : Int) ≤ 0 ∨
      nthD sB0.completed (0 : Int).toNat false = true) ∧
    (sB0.bringToFront 0).current.1 = 0 ∧
    (sB0.bringToFront 0).current.2.2 = true ∧
    (sB0.bringToFront 0).queue.filter (fun v => !(v == (0 : Int).toNat))
      = sB0.queue.filter (fun v => !(v == (0 : Int).toNat)) := by
  have hcond : ¬((0 : Int) < 0 ∨ (sB0.completed.length : Int) ≤ 0 ∨
      nthD sB0.completed (0 : Int).toNat false = true) := by decide
  have hh := (claim_C5 sB0 0).2 hcond
  exact ⟨hcond, (hh.1 (by decide)).1, (hh.1 (by decide)).2, hh.2⟩

/-- A question whose stored answer key is the empty string. -/
def qEmptyKey : Question := ⟨0, "", [], ""⟩

/-- One-question session whose only answer key is empty. -/
def sEmptyKey : Session := newSession [qEmptyKey] [0]

/-- C6 counterexample: on a session with a non-empty queue whose dequeued
question stores the empty answer key, the empty submission is graded
`correct = true` (Go: `strings.EqualFold("", "") = true`), refuting the
claim's "correct false ... whatever that key is". -/
theorem claim_C6_counterexample :
    sEmptyKey.queue = [0] ∧ goTrim "" = "" ∧
    (sEmptyKey.answer "").1.res.userAnswer = "" ∧
    (sEmptyKey.answer "").1.res.correct = true := by
  decide

/-- C6 (amended): with a non-empty queue, an input that trims to the empty
string yields a result with `userAnswer = ""`, and that result is graded
incorrect whenever the stored answer key of the dequeued question is
non-empty (an empty submission matches exactly the empty stored key). -/
theorem claim_C6_amended_thm (s : Session) (raw : String) (idx : Nat)
    (rest : List Nat) (hq : s.queue = idx :: rest)
    (htrim : (goTrim raw).data = []) :
    (s.answer raw).1.res.userAnswer = "" ∧
    ((nthD s.questions idx default).answer ≠ "" →
      (s.answer raw).1.res.correct = false) := by
  rw [answer_cons s raw idx rest hq, answerCore_fst]
  constructor
  · show userAnswerOf raw = ""
    unfold userAnswerOf normalize
    rw [htrim]
  · intro hkey
    show s.correctOf idx raw = false
    unfold Session.correctOf equalFold
    rw [htrim, List.map_nil]
    revert hkey
    generalize (nthD s.questions idx default).answer = k
    intro hkey
    obtain ⟨kd⟩ := k
    cases kd with
    | nil => exact absurd rfl hkey
    | cons c cs => rfl

theorem claim_C6_witness :
    (goTrim "  ").data = [] ∧
    (nthD sB0.questions 0 default).answer ≠ "" ∧
    (sB0.answer "  ").1.res.userAnswer = "" ∧
    (sB0.answer "  ").1.res.correct = false := by
  have hh := claim_C6_amended_thm sB0 "  " 0 [] rfl (by decide)
  exact ⟨by decide, by decide, hh.1, hh.2 (by decide)⟩

/-- C7: the claim's `userAnswer` clause fails on the code.  Go builds the
rune from the first byte of the Unicode-uppercased trimmed string
(`rune(strings.ToUpper(ans)[0])`), not from its uppercased first
character: for the submission "ä" (trimmed non-empty, first character 'ä',
uppercase 'Ä' = UTF-8 bytes 0xC3 0x84) the byte-faithful `normalize` value
is 0xC3, so `userAnswer` is "Ã" and not "Ä"; and for the submission
"\x00" (also non-empty after trimming) the first byte is 0, which the code
treats as "no answer given", so `userAnswer` is "" instead of a
one-character string. -/
theorem claim_C7_bug :
    (goTrim "ä").data = ['ä'] ∧
    goToUpperChar 'ä' = 'Ä' ∧
    normalizeByte "ä" = 195 ∧
    userAnswerByte "ä" = "Ã" ∧
    userAnswerByte "ä" ≠ "Ä" ∧
    (goTrim "\x00").data = ['\x00'] ∧
    normalizeByte "\x00" = 0 ∧
    userAnswerByte "\x00" = "" := by
  decide

/-- C8: `Score()`'s `answered` component equals the incrementally
maintained `attemptedCount`, which counts the set attempted flags; its
`score` component counts the in-range indices whose attempted flag is set
and whose stored result is correct; and `answered` never decreases under
any further sequence of operations. -/
theorem claim_C8 (s : Session) (h : Reachable s) :
    s.score.2 = s.attemptedCountFn ∧
    s.attemptedCountFn = countTrue s.attempted ∧
    s.score.1 = ((List.range s.questions.length).filter
      (fun i => nthD s.attempted i false &&
        (nthD s.results i default).correct)).length ∧
    ∀ ops : List Op, s.score.2 ≤ (s.run ops).score.2 := by
  have hi := reachable_inv s h
  refine ⟨score_answered_eq s hi, hi.acount, ?_, ?_⟩
  · unfold Session.score
    dsimp only
    rw [hi.len_res]
  · intro ops
    rw [score_answered_eq s hi,
      score_answered_eq (s.run ops) (reachable_inv _ (reachable_run s ops h))]
    exact (run_preserve s ops 0).2.2.1

theorem claim_C8_witness :
    sB1.score.2 = sB1.attemptedCountFn ∧
    sB1.score.2 ≤ (sB1.run [Op.answer "B"]).score.2 :=
  ⟨(claim_C8 sB1 reachable_sB1).1,
    (claim_C8 sB1 reachable_sB1).2.2.2 [Op.answer "B"]⟩

end Quiz
